import Mathlib

/-!
Verification of the engineering-memory experience-library tools.

This file gives a shallow embedding of the core logic of the repository's
three Python tools:

* `tools/search.py` — loading YAML/Markdown experience records, the
  Markdown metadata extraction (hand-transcribed semantics of the regular
  expressions used there), path-based category inference, tag synthesis,
  description truncation, star-glyph difficulty decoding, and the keyword
  search filter;
* `tools/validate.py` — the record validator (required fields, field
  formats, content quality, file naming);
* `tools/yaml_to_md.py` — the difficulty → star-glyph table used by the
  converter's metadata block.

Python values appearing in records are modelled by the inductive `YVal`
(strings, integers, lists, string-keyed dicts, None); a record is an
association list `PyDict`.  Python operations that can raise (attribute
errors on non-strings, iteration of non-iterables, unsupported
comparisons) are modelled with `Option`: `none` means the Python code
would raise.  `str.lower` is modelled on the ASCII range (the only range
the repository's data and checks exercise), and `str.strip` with the
ASCII whitespace characters.
-/

namespace EngMem


/-- ASCII whitespace as recognised by Python's `str.strip` / regex `\s`
(space, tab, newline, carriage return, vertical tab, form feed). -/
def pyWhitespace (c : Char) : Bool :=
  c = ' ' ∨ c = '\t' ∨ c = '\n' ∨ c = '\r' ∨ c = '\x0b' ∨ c = '\x0c'

/-- Python `str.strip()` on a character list: drop whitespace from both ends. -/
def pyStrip (l : List Char) : List Char :=
  ((l.dropWhile pyWhitespace).reverse.dropWhile pyWhitespace).reverse

/-- Python `str.strip(c)` for a single character argument: drop copies of
`c` from both ends. -/
def pyStripChar (c : Char) (l : List Char) : List Char :=
  ((l.dropWhile (· = c)).reverse.dropWhile (· = c)).reverse

/-- Python `str.lower` on one character (ASCII range). -/
def pyLowerChar (c : Char) : Char :=
  if 65 ≤ c.toNat ∧ c.toNat ≤ 90 then Char.ofNat (c.toNat + 32) else c

/-- Python `str.lower` (ASCII range). -/
def pyLower (s : String) : String :=
  (s.toList.map pyLowerChar).asString

/-- Python substring containment `needle in hay` on character lists. -/
def listContainsSub (hay needle : List Char) : Bool :=
  match hay with
  | [] => needle.isEmpty
  | _ :: t => needle.isPrefixOf hay || listContainsSub t needle

/-- Python `needle in hay` on strings. -/
def strContains (hay needle : String) : Bool :=
  listContainsSub hay.toList needle.toList

/-- Python `s.startswith(pre)`. -/
def pyStartsWith (s pre : String) : Bool :=
  pre.toList.isPrefixOf s.toList

/-- Python `str.split(sep)` for a one-character separator on character
lists (keeps empty pieces, like Python). -/
def pySplitChar (sep : Char) : List Char → List (List Char)
  | [] => [[]]
  | c :: rest =>
    let r := pySplitChar sep rest
    if c = sep then [] :: r else (c :: r.headD []) :: r.tail

/-! ### Python value model -/
/-- A Python value as stored in a record: string, int, list, string-keyed
dict, or None.  (Floats/booleans do not occur in the code paths modelled
here.) -/
inductive YVal where
  | s (v : String)
  | i (v : Int)
  | l (v : List YVal)
  | m (v : List (String × YVal))
  | null

/-- A Python dict with string keys, as an insertion-ordered association
list (the shape of every experience record). -/
abbrev PyDict := List (String × YVal)

/-- Python truthiness (`bool(v)`) for the modelled values. -/
def pyFalsy : YVal → Bool
  | .s v => v == ""
  | .i n => n == 0
  | .l xs => xs.isEmpty
  | .m kvs => kvs.isEmpty
  | .null => true

/-- Python `v == someString` for a modelled value: only a string can
compare equal to a string. -/
def yvalEqStr (v : YVal) (t : String) : Bool :=
  match v with
  | .s x => x == t
  | _ => false

/-- Python `v in listOfStrings` for a modelled value. -/
def yvalInStrList (v : YVal) (l : List String) : Bool :=
  match v with
  | .s c => l.contains c
  | _ => false

/-- Python `len(v)`; `none` when `len` would raise (ints, None). -/
def pyLen : YVal → Option Nat
  | .s v => some v.length
  | .l xs => some xs.length
  | .m kvs => some kvs.length
  | _ => none

/-- Python `str(v)`, as interpolated into f-strings.  Container reprs are
approximated (they reach only advisory warning text that no claim
inspects). -/
def pyStr : YVal → String
  | .s v => v
  | .i n => toString n
  | .l _ => "[...]"
  | .m _ => "(dict)"
  | .null => "None"

/-- Python `d[k] = v` on an insertion-ordered dict: overwrite in place if
the key exists, else append. -/
def pySet (d : PyDict) (k : String) (v : YVal) : PyDict :=
  if (d.lookup k).isSome then
    d.map (fun p => if p.1 = k then (p.1, v) else p)
  else
    d ++ [(k, v)]

/-- Overwrite-or-append assignment on a string-valued association list
(used for the metadata dict comprehension, where later keys win). -/
def pySetStr (d : List (String × String)) (k v : String) : List (String × String) :=
  if (d.lookup k).isSome then
    d.map (fun p => if p.1 = k then (p.1, v) else p)
  else
    d ++ [(k, v)]

/-! ### tools/search.py — metadata-block extraction
The metadata regex is
`r'> \*\*([^*]+)\*\*:\s*(.+?)(?=\n(?:> |[^>]))'` with `re.DOTALL`,
consumed by `re.findall`.  Its semantics are transcribed by hand:
* the lookahead `(?=\n(?:> |[^>]))` holds at a position whose character
  is a newline followed either by `"> "` or by any single non-`>`
  character (`stopHere`);
* the lazy `(.+?)` takes the shortest non-empty value ending at a
  position where the lookahead holds (`takeUntil`);
* the greedy `\s*` first takes the whole whitespace run after the colon;
  if no stop position exists after the run, the engine backtracks into
  the run, which succeeds exactly when some stop position lies inside it,
  and then yields the largest such position with a one-character value
  (`maxStopIn`, the `none` branch of `matchMetaHead`);
* `re.findall` scans left to right and resumes after each match
  (`findMetaGo`). -/
/-- Does the regex lookahead `(?=\n(?:> |[^>]))` hold at the head of this
suffix? -/
def stopHere (cs : List Char) : Bool :=
  match cs with
  | a :: b :: rest => a = '\n' && (if b = '>' then rest.take 1 = [' '] else true)
  | _ => false

/-- Lazy match of `(.+?)(?=stop)`: the shortest non-empty prefix such that
`stop` holds at the remaining suffix; `none` if there is no such split. -/
def takeUntil (stop : List Char → Bool) : List Char → Option (List Char × List Char)
  | [] => none
  | c :: rest =>
    if stop rest then some ([c], rest)
    else (takeUntil stop rest).map (fun p => (c :: p.1, p.2))

/-- Largest position `j` with `1 ≤ j ≤ w` at which the lookahead holds
inside the whitespace run (the backtracking case of `\s*(.+?)`). -/
def maxStopIn (q : List Char) (w : Nat) : Option Nat :=
  ((List.range (w + 1)).filter (fun j => decide (1 ≤ j) && stopHere (q.drop j))).getLast?

/-- The `\s*(.+?)(?=...)` tail of the metadata regex, applied after the
colon: greedy whitespace, then the lazy value, with the backtracking
fallback into the whitespace run. -/
def metaValue (label q : List Char) : Option (List Char × List Char × List Char) :=
  let w := (q.takeWhile pyWhitespace).length
  match takeUntil stopHere (q.drop w) with
  | some (v, r) => some (label, v, r)
  | none =>
    match maxStopIn q w with
    | some j => some (label, (q.drop (j - 1)).take 1, q.drop j)
    | none => none

/-- After the label: expect the literal `**:` and hand over to the value
match. -/
def metaAfterLabel (label rest2 : List Char) : Option (List Char × List Char × List Char) :=
  match rest2 with
  | '*' :: '*' :: ':' :: q => metaValue label q
  | _ => none

/-- After the literal `> **`: take the non-empty star-free label
(`[^*]+`), then the rest of the entry. -/
def metaAfterStars (rest1 : List Char) : Option (List Char × List Char × List Char) :=
  let label := rest1.takeWhile (· ≠ '*')
  if label.isEmpty then none
  else metaAfterLabel label (rest1.drop label.length)

/-- Attempt the metadata regex match anchored at the head of `cs`,
returning `(label, value, rest)` where `rest` is the suffix at which the
scan resumes. -/
def matchMetaHead (cs : List Char) : Option (List Char × List Char × List Char) :=
  match cs with
  | '>' :: ' ' :: '*' :: '*' :: rest1 => metaAfterStars rest1
  | _ => none


/-- `re.findall` scan for the metadata regex: try a match at every
position, resuming after the end of each match.  The scan is written
with an explicit step budget so that it is structurally recursive; a
budget of `cs.length` is exact, because every step strictly shortens the
remaining suffix (`matchMetaHead_rest_length`), so the budget never runs
out before the suffix is empty. -/
def findMetaGo : Nat → List Char → List (List Char × List Char)
  | 0, _ => []
  | fuel + 1, cs =>
    match matchMetaHead cs with
    | some (l, v, r) => (l, v) :: findMetaGo fuel r
    | none =>
      match cs with
      | [] => []
      | _ :: t => findMetaGo fuel t

/-- The metadata scan over a character list, with the exact budget. -/
def findMetaL (cs : List Char) : List (List Char × List Char) :=
  findMetaGo cs.length cs

/-- All `(label, value)` pairs produced by the metadata regex on a
document (`re.findall(meta_pattern, content, re.DOTALL)`). -/
def findMeta (content : String) : List (String × String) :=
  (findMetaL content.toList).map (fun p => (p.1.asString, p.2.asString))

/-- The `meta_info` dict comprehension:
`{key: value.strip() for key, value in meta_matches}` (later keys win). -/
def metaInfo (content : String) : List (String × String) :=
  (findMeta content).foldl (fun d p => pySetStr d p.1 (pyStrip p.2.toList).asString) []

/-! ### tools/search.py — the other regexes of `parse_markdown_experience` -/
/-- Title search: `re.search(r'^# (.+)', content, re.MULTILINE)` — the
first line starting with `"# "` and carrying at least one further
character; the group is the rest of that line. -/
def findTitle (content : String) : Option String :=
  ((pySplitChar '\n' content.toList).find?
      (fun ln => "# ".toList.isPrefixOf ln && decide (2 < ln.length))).map
    (fun ln => (ln.drop 2).asString)

/-- Tag-declaration match anchored at the head of the suffix:
`标签[：:]\s*\[([^\]]+)\]` (label, full- or half-width colon, whitespace,
then a bracketed non-empty list); returns the bracketed group. -/
def matchTagsHead (cs : List Char) : Option (List Char) :=
  match cs with
  | '标' :: '签' :: c :: rest =>
    if c = '：' ∨ c = ':' then
      match rest.dropWhile pyWhitespace with
      | '[' :: rest3 =>
        let g := rest3.takeWhile (· ≠ ']')
        if g.isEmpty then none
        else if g.length < rest3.length then some g else none
      | _ => none
    else none
  | _ => none

/-- `re.search` scan for the tag declaration: first position at which the
pattern matches. -/
def searchTags (cs : List Char) : Option (List Char) :=
  match cs with
  | [] => none
  | _ :: t =>
    match matchTagsHead cs with
    | some g => some g
    | none => searchTags t

/-- Lookahead `(?=\n##)`: the suffix starts with newline and two hashes. -/
def stopDesc (cs : List Char) : Bool :=
  cs.take 3 = ['\n', '#', '#']

/-- Background-description match anchored at the head of the suffix:
`## 背景描述\s*\n\n(.+?)(?=\n##)` with `re.DOTALL`.  The greedy `\s*`
backtracks so that the literal `\n\n` sits at the last position inside
the whitespace run where two newlines are adjacent; the group is then
the lazy non-empty text up to the next `\n##`. -/
def matchDescHead (cs : List Char) : Option (List Char) :=
  match cs with
  | '#' :: '#' :: ' ' :: '背' :: '景' :: '描' :: '述' :: q =>
    let w := (q.takeWhile pyWhitespace).length
    ((List.range (w + 1)).reverse.findSome? (fun k =>
      if (q.drop k).take 2 = ['\n', '\n'] then
        (takeUntil stopDesc (q.drop (k + 2))).map (fun p => p.1)
      else none))
  | _ => none

/-- `re.search` scan for the background-description pattern. -/
def searchDesc (cs : List Char) : Option (List Char) :=
  match cs with
  | [] => none
  | _ :: t =>
    match matchDescHead cs with
    | some g => some g
    | none => searchDesc t

/-- Intro match: `re.search(r'^# .+?\n\n(.+?)(?=\n##)', content, re.DOTALL)`
— without `re.MULTILINE` the `^` anchors at position 0 only; the lazy
title runs to the first `\n\n` after at least one character, then the
group is the lazy non-empty text up to the next `\n##`. -/
def matchIntro (cs : List Char) : Option (List Char) :=
  match cs with
  | '#' :: ' ' :: rest => (skipTitleNN rest).bind
      (fun u => (takeUntil stopDesc u).map (fun p => p.1))
  | _ => none
where
  /-- Consume `.+?\n\n`: at least one character, up to and including the
  earliest following `"\n\n"`. -/
  skipTitleNN : List Char → Option (List Char)
    | [] => none
    | _ :: rest =>
      if rest.take 2 = ['\n', '\n'] then some (rest.drop 2) else skipTitleNN rest

/-- The tech-stack extraction of `parse_markdown_experience`: the
metadata value for the technology label, split on commas with entries
stripped; an absent or empty value yields the empty list. -/
def techStackOf (content : String) : List String :=
  let tech_stack_text := ((metaInfo content).lookup "技术栈").getD ""
  if tech_stack_text ≠ "" then
    (pySplitChar ',' tech_stack_text.toList).map (fun t => (pyStrip t).asString)
  else []

/-- The star-glyph difficulty decoding of `parse_markdown_experience`
(substring checks, longest run first, default `intermediate`). -/
def parseDifficulty (txt : String) : String :=
  if strContains txt "⭐⭐⭐⭐⭐" then "expert"
  else if strContains txt "⭐⭐⭐⭐" then "advanced"
  else if strContains txt "⭐⭐⭐" then "intermediate"
  else if strContains txt "⭐⭐" then "beginner"
  else "intermediate"

/-- Python `s.split('-', 1)[1]`: everything after the first hyphen
(callers guard on `'-' in s`). -/
def afterFirstHyphen (s : String) : String :=
  ((s.toList.dropWhile (· ≠ '-')).drop 1).asString

/-- The known ecosystem/tool directory names treated as subcategories. -/
def knownSubcats : List String := ["flutter", "react", "python", "cursor-workflows"]

/-- Category/subcategory inference from `md_file.parts` (the path
components, filename last), lines 82–99 of `tools/search.py`. -/
def inferCategory (parts : List String) : String × String :=
  if 2 ≤ parts.length then
    let categoryPart := parts.getD (parts.length - 2) ""
    if pyStartsWith categoryPart "0" && categoryPart.toList.contains '-' then
      (afterFirstHyphen categoryPart, "general")
    else if knownSubcats.contains categoryPart then
      if 3 ≤ parts.length then
        let parentPart := parts.getD (parts.length - 3) ""
        if pyStartsWith parentPart "0" && parentPart.toList.contains '-' then
          (afterFirstHyphen parentPart, categoryPart)
        else ("general", categoryPart)
      else ("general", categoryPart)
    else (categoryPart, "general")
  else ("general", "general")

/-- Tag synthesis when no explicit declaration is found: copy the tech
stack, append the category if absent, then the subcategory if it is not
`"general"` and absent. -/
def synthTags (tech_stack : List String) (category subcategory : String) : List String :=
  let tags := tech_stack
  let tags := if tags.contains category then tags else tags ++ [category]
  if subcategory ≠ "general" && !(tags.contains subcategory) then tags ++ [subcategory]
  else tags

/-- One explicit tag entry: `tag.strip().strip('"').strip("'")`. -/
def cleanTag (t : List Char) : List Char :=
  pyStripChar '\x27' (pyStripChar '"' (pyStrip t))

/-- The description truncation expression of lines 118/123:
`group.strip()[:200] + '...' if len(group) > 200 else group.strip()`. -/
def truncateDesc (g : List Char) : List Char :=
  if 200 < g.length then (pyStrip g).take 200 ++ "...".toList else pyStrip g

/-- `str.lower().replace(' ', '-')` as applied to the synthesized id. -/
def idNormalize (s : String) : String :=
  (s.toList.map pyLowerChar |>.map (fun c => if c = ' ' then '-' else c)).asString

/-- `parse_markdown_experience` (tools/search.py, lines 49–140), minus
file I/O: takes the file content, the path components (`md_file.parts`)
and the file stem, and returns the record dict. -/
def parse_markdown_experience (content : String) (parts : List String) (stem : String) :
    PyDict :=
  let cs := content.toList
  let title := (findTitle content).getD stem
  let meta := metaInfo content
  let tech_stack := techStackOf content
  let difficulty := parseDifficulty ((meta.lookup "难度等级").getD "")
  let cat := inferCategory parts
  let category := cat.1
  let subcategory := cat.2
  let tags :=
    match searchTags cs with
    | some g => (pySplitChar ',' g).map (fun t => (cleanTag t).asString)
    | none => synthTags tech_stack category subcategory
  let description :=
    match searchDesc cs with
    | some g => (truncateDesc g).asString
    | none =>
      match matchIntro cs with
      | some g => (truncateDesc g).asString
      | none => ""
  let experience_id := idNormalize (category ++ "-" ++ subcategory ++ "-" ++ stem)
  [("id", .s experience_id),
   ("title", .s title),
   ("category", .s category),
   ("subcategory", .s subcategory),
   ("tags", .l (tags.map .s)),
   ("difficulty", .s difficulty),
   ("tech_stack", .l (tech_stack.map .s)),
   ("description", .s description),
   ("content", .s content),
   ("source", .s ((meta.lookup "来源").getD "")),
   ("applicable_scope", .s ((meta.lookup "适用范围").getD ""))]

/-! ### tools/search.py — loading the store -/
/-- Loading one parsed YAML document (lines 28–36): graft `file_path` and
`format` onto the mapping; a non-dict document raises on item assignment
and the file is skipped (`none`). -/
def loadYamlExperience (doc : YVal) (path : String) : Option PyDict :=
  match doc with
  | .m kvs => some (pySet (pySet kvs "file_path" (.s path)) "format" (.s "yaml"))
  | _ => none

/-- Loading one Markdown file (lines 38–47): parse, then graft
`file_path` and `format` (the parse result is always a non-empty dict,
so the `if experience:` guard always passes). -/
def loadMarkdownExperience (content : String) (parts : List String) (stem path : String) :
    PyDict :=
  pySet (pySet (parse_markdown_experience content parts stem) "file_path" (.s path))
    "format" (.s "markdown")

/-- `load_experiences`: all YAML files (in directory order), then all
Markdown files. -/
def load_experiences (yamls : List (YVal × String))
    (mds : List (String × List String × String × String)) : List PyDict :=
  (yamls.filterMap (fun p => loadYamlExperience p.1 p.2)) ++
    (mds.map (fun q => loadMarkdownExperience q.1 q.2.1 q.2.2.1 q.2.2.2))


/-! ### tools/search.py — `search_by_keyword`
`search_by_keyword` lowercases the keyword once and appends every record
matching on title/description/tags/category/subcategory, else (for
markdown records) on the full content, else (for yaml records with a
dict-valued solution) on the solution's approach/implementation.  All
comparisons lowercase the record field first; `.lower()` on a non-string
raises, which `Option` models as `none`. -/
/-- `keyword_lower in v.lower()`; `none` when `v` is not a string. -/
def lowContains (kwl : String) (v : YVal) : Option Bool :=
  match v with
  | .s t => some (strContains (pyLower t) kwl)
  | _ => none

/-- `any(kwl in tag.lower() for tag in xs)` with short-circuiting. -/
def anyLowContains (kwl : String) : List YVal → Option Bool
  | [] => some false
  | v :: rest =>
    (lowContains kwl v).bind fun b =>
      if b then some true else anyLowContains kwl rest

/-- Iterating the `tags` value: a list yields its elements, a string its
characters (as one-character strings), a dict its keys; ints and None
are not iterable (`none`). -/
def anyTagMatch (kwl : String) (v : YVal) : Option Bool :=
  match v with
  | .l xs => anyLowContains kwl xs
  | .s str => anyLowContains kwl (str.toList.map (fun c => .s (String.mk [c])))
  | .m kvs => anyLowContains kwl (kvs.map (fun p => .s p.1))
  | _ => none

/-- `exp.get(k, d)`. -/
def getF (exp : PyDict) (k : String) (d : YVal) : YVal :=
  (exp.lookup k).getD d

/-- The base-field check of `search_by_keyword` (title, description,
tags, category, subcategory), with Python's short-circuiting `or`. -/
def matchBase (kwl : String) (exp : PyDict) : Option Bool :=
  (lowContains kwl (getF exp "title" (.s ""))).bind fun b1 =>
  if b1 then some true else
  (lowContains kwl (getF exp "description" (.s ""))).bind fun b2 =>
  if b2 then some true else
  (anyTagMatch kwl (getF exp "tags" (.l []))).bind fun b3 =>
  if b3 then some true else
  (lowContains kwl (getF exp "category" (.s ""))).bind fun b4 =>
  if b4 then some true else
  lowContains kwl (getF exp "subcategory" (.s ""))

/-- The yaml-format fallback: if `format == 'yaml'` and the solution is
a dict, check its approach and implementation texts. -/
def matchYamlSolution (kwl : String) (exp : PyDict) : Option Bool :=
  if yvalEqStr (getF exp "format" .null) "yaml" then
    match getF exp "solution" (.m []) with
    | .m kvs =>
      (lowContains kwl ((kvs.lookup "approach").getD (.s ""))).bind fun a =>
      if a then some true else
      lowContains kwl ((kvs.lookup "implementation").getD (.s ""))
    | _ => some false
  else some false

/-- Whether one record matches the (already lowercased) keyword. -/
def matchKeyword (kwl : String) (exp : PyDict) : Option Bool :=
  (matchBase kwl exp).bind fun b =>
  if b then some true else
  if yvalEqStr (getF exp "format" .null) "markdown" then
    (lowContains kwl (getF exp "content" (.s ""))).bind fun c =>
    if c then some true else matchYamlSolution kwl exp
  else matchYamlSolution kwl exp

/-- `search_by_keyword` (tools/search.py, lines 146–177): keep the
matching records in order; `none` if some record made the scan raise. -/
def search_by_keyword (keyword : String) : List PyDict → Option (List PyDict)
  | [] => some []
  | e :: rest =>
    (matchKeyword (pyLower keyword) e).bind fun b =>
      (search_by_keyword keyword rest).map fun r =>
        if b then e :: r else r

/-! ### tools/validate.py — `ExperienceValidator`
The validator's input is the parsed YAML mapping.  Only the fixed set of
keys the checks consult is modelled, as a structure of optional values
(`none` = key absent).  `validate_file`'s own `try/except` only guards
the file read, which is outside the model; exceptions raised inside the
checks (attribute errors, bad comparisons) propagate, modelled by an
`Option` result. -/
def required_fields : List String :=
  ["id", "title", "category", "subcategory", "tags",
   "difficulty", "tech_stack", "description"]

def valid_categories : List String :=
  ["architecture", "patterns", "debugging",
   "performance", "testing", "deployment"]

def valid_difficulties : List String :=
  ["beginner", "intermediate", "advanced", "expert"]

/-- The YAML mapping under validation, restricted to the keys the
validator consults (`none` = key absent from the mapping). -/
structure YamlDoc where
  id : Option YVal := none
  title : Option YVal := none
  category : Option YVal := none
  subcategory : Option YVal := none
  tags : Option YVal := none
  difficulty : Option YVal := none
  tech_stack : Option YVal := none
  description : Option YVal := none
  solution : Option YVal := none
  metadata : Option YVal := none

/-- The required fields of a document, in the order `required_fields`
iterates them. -/
def docRequired (d : YamlDoc) : List (String × Option YVal) :=
  [("id", d.id), ("title", d.title), ("category", d.category),
   ("subcategory", d.subcategory), ("tags", d.tags),
   ("difficulty", d.difficulty), ("tech_stack", d.tech_stack),
   ("description", d.description)]

/-- `_check_required_fields`: an error per missing and per falsy
required field. -/
def checkRequiredFields (d : YamlDoc) : List String :=
  (docRequired d).filterMap fun p =>
    match p.2 with
    | none => some ("缺少必需字段: " ++ p.1)
    | some v => if pyFalsy v then some ("字段 " ++ p.1 ++ " 不能为空") else none

/-- `_check_field_formats`: enum checks for category/difficulty, list
checks for tags/tech_stack, advisory id-pattern check.  `none` when the
id is present but not a string (`.startswith` raises). -/
def checkFieldFormats (d : YamlDoc) : Option (List String × List String) :=
  let catErr :=
    match d.category with
    | some v => if yvalInStrList v valid_categories then [] else ["无效的分类: " ++ pyStr v]
    | none => []
  let diffErr :=
    match d.difficulty with
    | some v => if yvalInStrList v valid_difficulties then [] else ["无效的难度: " ++ pyStr v]
    | none => []
  let tagsEW : List String × List String :=
    match d.tags with
    | some (.l xs) => if xs.length = 0 then ([], ["建议添加至少一个标签"]) else ([], [])
    | some _ => (["tags 字段必须是数组"], [])
    | none => ([], [])
  let techErr :=
    match d.tech_stack with
    | some (.l _) => []
    | some _ => ["tech_stack 字段必须是数组"]
    | none => []
  match d.id with
  | some (.s idv) =>
    let pat := pyStr (d.category.getD (.s "")) ++ "-"
    let idWarn := if pyStartsWith idv pat then [] else ["ID建议以 " ++ pat ++ " 开头"]
    some (catErr ++ diffErr ++ tagsEW.1 ++ techErr, tagsEW.2 ++ idWarn)
  | some _ => none
  | none => some (catErr ++ diffErr ++ tagsEW.1 ++ techErr, tagsEW.2)

/-- The per-example loop of the code-examples check (`enumerate` from 1
in the messages); `none` when an example is not a dict (`.get` raises). -/
def codeExampleErrs : List YVal → Nat → Option (List String)
  | [], _ => some []
  | .m kvs :: rest, i =>
    let e1 := if pyFalsy ((kvs.lookup "language").getD .null) then
      ["代码示例 " ++ toString i ++ " 缺少 language 字段"] else []
    let e2 := if pyFalsy ((kvs.lookup "code").getD .null) then
      ["代码示例 " ++ toString i ++ " 缺少 code 字段"] else []
    (codeExampleErrs rest (i + 1)).map (fun es => e1 ++ e2 ++ es)
  | _ :: _, _ => none

/-- `_check_content_quality`: description length warnings, missing
solution / empty approach errors, code-example checks, metadata
warnings.  `none` wherever the Python code would raise. -/
def checkContentQuality (d : YamlDoc) : Option (List String × List String) :=
  (match d.description with
   | none => some []
   | some v => (pyLen v).map fun n =>
      if n < 20 then ["描述过短，建议至少20个字符"]
      else if 200 < n then ["描述过长，建议控制在200个字符内"]
      else []).bind fun descWarn =>
  (match d.solution with
   | none => some ["缺少 solution 字段"]
   | some (.m kvs) =>
      some (if pyFalsy ((kvs.lookup "approach").getD .null) then ["solution.approach 不能为空"] else [])
   | some _ => none).bind fun solErr =>
  (match d.solution.getD (.m []) with
   | .m kvs =>
      let ce := (kvs.lookup "code_examples").getD (.l [])
      if pyFalsy ce then some ([], ["建议添加代码示例"])
      else
        match ce with
        | .l xs => (codeExampleErrs xs 1).map (fun es => (es, []))
        | _ => none
   | _ => none).bind fun ceEW =>
  (match d.metadata.getD (.m []) with
   | .m kvs =>
      let w1 := if pyFalsy ((kvs.lookup "author").getD .null) then ["建议添加作者信息"] else []
      let w2 := if pyFalsy ((kvs.lookup "created_at").getD .null) then ["建议添加创建日期"] else []
      match (kvs.lookup "quality_score").getD (.i 0) with
      | .i q => some (w1 ++ w2 ++ (if q < 5 then ["质量评分较低，建议改进内容"] else []))
      | _ => none
   | _ => none).map fun mdWarn =>
  (solErr ++ ceEW.1, descWarn ++ ceEW.2 ++ mdWarn)

/-- `_check_file_naming`: directory-placement and year-in-filename
warnings, given the file stem and `str(file_path.parent)`.  `none` when
the category is truthy but not a string (`in` raises). -/
def checkFileNaming (stem parentStr : String) (d : YamlDoc) : Option (List String) :=
  (match d.category.getD (.s "") with
   | .s c => some (if c ≠ "" && !(strContains parentStr c) then ["文件应该放在 " ++ c ++ " 目录下"] else [])
   | v => if pyFalsy v then some [] else none).map fun w1 =>
  w1 ++ (if !(strContains stem "2024") && !(strContains stem "2023") then ["建议在文件名中包含年份"] else [])

/-- `validate_file` (tools/validate.py, lines 30–58) on a parsed
mapping: run the four checks in order; the result is
`(valid, errors, warnings)` with `valid = errors == []`.  `none` when a
check raises (the exception propagates out of `validate_file`). -/
def validate_file (d : YamlDoc) (stem parentStr : String) :
    Option (Bool × List String × List String) :=
  let e1 := checkRequiredFields d
  (checkFieldFormats d).bind fun p2 =>
  (checkContentQuality d).bind fun p3 =>
  (checkFileNaming stem parentStr d).map fun w4 =>
  let errors := e1 ++ p2.1 ++ p3.1
  let warnings := p2.2 ++ p3.2 ++ w4
  (errors.isEmpty, errors, warnings)

/-! ### tools/yaml_to_md.py — the difficulty table -/
/-- `YamlToMarkdownConverter.difficulty_stars`. -/
def difficulty_stars : List (String × String) :=
  [("beginner", "⭐⭐"),
   ("intermediate", "⭐⭐⭐"),
   ("advanced", "⭐⭐⭐⭐"),
   ("expert", "⭐⭐⭐⭐⭐")]

/-- The star string `build_meta_block` writes for a difficulty:
`self.difficulty_stars.get(difficulty, '⭐⭐⭐')`. -/
def starsFor (difficulty : String) : String :=
  (difficulty_stars.lookup difficulty).getD "⭐⭐⭐"

/-- A string of `k` star glyphs. -/
def mkStars (k : Nat) : String :=
  (List.replicate k (Char.ofNat 11088)).asString

/-! ### Spec-side definitions
The following definitions transcribe the words of the specification (not
the code); they exist to be compared against the code-derived
definitions above. -/
/-- Modelled from the spec: the `<digit-prefix>-<name>` pattern of the
path-classifier description — a non-empty run of digits, a hyphen, and
a non-empty name. -/
def digitPrefixName (s : String) : Bool :=
  let d := s.toList.takeWhile Char.isDigit
  !d.isEmpty && ((s.toList.drop d.length).take 1 = ['-'])
    && !(s.toList.drop (d.length + 1)).isEmpty

/-- Modelled from the spec: the path-classifier algorithm exactly as the
claim states it — inspect the segment two levels above the file
(immediate parent's parent) for the digit-prefix pattern; treat a known
ecosystem name in the immediate parent as subcategory, re-deriving the
category from its own parent by the same digit-prefix rule; otherwise
use the immediate parent as category; fall back to `"general"` for
shallow paths. -/
def specClassify (parts : List String) : String × String :=
  if parts.length < 2 then ("general", "general")
  else
    let parent := parts.getD (parts.length - 2) ""
    let grand := parts.getD (parts.length - 3) ""
    if 3 ≤ parts.length && digitPrefixName grand then
      if knownSubcats.contains parent then (afterFirstHyphen grand, parent)
      else (afterFirstHyphen grand, "general")
    else if knownSubcats.contains parent then
      ("general", parent)
    else (parent, "general")

/-- The amended path-classifier claim: the rule inspects the immediate
parent (one level above the file); the pattern test is "starts with the
character 0 and contains a hyphen"; the grandparent is consulted only in
the known-subcategory branch.  Stated over the reversed component list
to be structurally independent of `inferCategory`. -/
def amendedClassify (parts : List String) : String × String :=
  match parts.reverse with
  | _ :: parent :: rest =>
    if pyStartsWith parent "0" && parent.toList.contains '-' then
      (afterFirstHyphen parent, "general")
    else if knownSubcats.contains parent then
      match rest with
      | grand :: _ =>
        if pyStartsWith grand "0" && grand.toList.contains '-' then (afterFirstHyphen grand, parent)
        else ("general", parent)
      | [] => ("general", parent)
    else (parent, "general")
  | _ => ("general", "general")

/-- The claim's formulation of tag synthesis: tech stack in order, then
the category when absent, then the subcategory when it is neither the
default nor already present. -/
def claimSynthTags (ts : List String) (c sc : String) : List String :=
  let withCat := ts ++ (if ts.contains c then [] else [c])
  withCat ++ (if sc ≠ "general" && !(withCat.contains sc) then [sc] else [])

/-! ### Field lowering (for the case-insensitivity claim) -/
/-- Lowercase a string value, leave anything else unchanged. -/
def lowerStrV : YVal → YVal
  | .s x => .s (pyLower x)
  | v => v

/-- Lowercase the parts of a record field that keyword matching reads:
the five directly-matched string fields, the tag-list entries, and the
solution's approach/implementation values. -/
def lowerFieldV (k : String) (v : YVal) : YVal :=
  if k = "title" ∨ k = "description" ∨ k = "category" ∨ k = "subcategory" ∨ k = "content" then
    lowerStrV v
  else if k = "tags" then
    match v with
    | .l xs => .l (xs.map lowerStrV)
    | v => v
  else if k = "solution" then
    match v with
    | .m kvs => .m (kvs.map (fun p =>
        (p.1, if p.1 = "approach" ∨ p.1 = "implementation" then lowerStrV p.2 else p.2)))
    | v => v
  else v

/-- Lowercase every matched field of a record. -/
def lowerRecord (exp : PyDict) : PyDict :=
  exp.map (fun p => (p.1, lowerFieldV p.1 p.2))

/-- C4 counterexample: a matched description group of 201 characters
(100 letters followed by 101 spaces) strips to 100 characters — at most
200, so by the claim it must be preserved verbatim — yet the code
appends the ellipsis marker because the length test uses the raw group. -/
def c4group : List Char := List.replicate 100 'a' ++ List.replicate 101 ' '


/-- A YAML mapping with every required field present, non-empty, and
well-typed (category/difficulty from the valid enums), and no
`solution` or `metadata` key. -/
def completeDoc (i t c sc dsc d : String) (tags tech : List String) : YamlDoc :=
  { id := some (.s i), title := some (.s t), category := some (.s c),
    subcategory := some (.s sc), tags := some (.l (tags.map .s)),
    difficulty := some (.s d), tech_stack := some (.l (tech.map .s)),
    description := some (.s dsc), solution := none, metadata := none }

/-! ### Lemmas and claim theorems -/

theorem takeUntil_rest_length {stop : List Char → Bool} :
    ∀ {cs v r}, takeUntil stop cs = some (v, r) → r.length < cs.length := by
  intro cs
  induction cs with
  | nil => intro v r h; simp [takeUntil] at h
  | cons c rest ih =>
    intro v r h
    simp only [takeUntil] at h
    by_cases hs : stop rest
    · rw [if_pos hs] at h
      have hr : r = rest := by
        injection h with h2
        exact (congrArg Prod.snd h2).symm
      subst hr
      simp [List.length_cons, Nat.lt_succ_self]
    · rw [if_neg hs] at h
      rcases Option.map_eq_some'.mp h with ⟨⟨v0, r0⟩, h0, hfr⟩
      have hr : r = r0 := by
        simpa using congrArg Prod.snd hfr.symm
      subst hr
      have := ih h0
      simp only [List.length_cons]
      omega

theorem metaValue_rest_length {label q l v r : List Char}
    (h : metaValue label q = some (l, v, r)) : r.length ≤ q.length := by
  unfold metaValue at h
  dsimp only at h
  split at h
  case h_1 v0 r0 heq2 =>
    have hr : r = r0 := by
      have := (Option.some.injEq _ _).mp h
      simpa using (congrArg (fun t => t.2.2) this).symm
    have h1 := takeUntil_rest_length heq2
    have h2 : (q.drop ((q.takeWhile pyWhitespace).length)).length ≤ q.length := by
      simp [List.length_drop]
    subst hr
    omega
  case h_2 =>
    split at h
    case h_2 => exact absurd h (by simp)
    case h_1 j heq3 =>
      have hr : r = q.drop j := by
        have := (Option.some.injEq _ _).mp h
        simpa using (congrArg (fun t => t.2.2) this).symm
      subst hr
      simp [List.length_drop]

theorem metaAfterLabel_rest_length {label rest2 l v r : List Char}
    (h : metaAfterLabel label rest2 = some (l, v, r)) : r.length ≤ rest2.length := by
  unfold metaAfterLabel at h
  split at h
  case h_2 => exact absurd h (by simp)
  case h_1 q =>
    have := metaValue_rest_length h
    simp only [List.length_cons]
    omega

theorem metaAfterStars_rest_length {rest1 l v r : List Char}
    (h : metaAfterStars rest1 = some (l, v, r)) : r.length ≤ rest1.length := by
  unfold metaAfterStars at h
  dsimp only at h
  split at h
  · exact absurd h (by simp)
  · have h1 := metaAfterLabel_rest_length h
    have h2 : (rest1.drop ((rest1.takeWhile (· ≠ '*')).length)).length ≤ rest1.length := by
      simp [List.length_drop]
    omega

theorem matchMetaHead_rest_length {cs l v r : List Char}
    (h : matchMetaHead cs = some (l, v, r)) : r.length < cs.length := by
  unfold matchMetaHead at h
  split at h
  case h_2 => exact absurd h (by simp)
  case h_1 rest1 =>
    have := metaAfterStars_rest_length h
    simp only [List.length_cons]
    omega

theorem findMetaGo_nil (fuel : Nat) : findMetaGo fuel [] = [] := by
  cases fuel <;> simp [findMetaGo, matchMetaHead]

theorem findMetaGo_step {cs l v r : List Char} (fuel : Nat)
    (hm : matchMetaHead cs = some (l, v, r)) :
    findMetaGo (fuel + 1) cs = (l, v) :: findMetaGo fuel r := by
  simp [findMetaGo, hm]

theorem findMetaGo_skip {c : Char} {t : List Char} (fuel : Nat)
    (hm : matchMetaHead (c :: t) = none) :
    findMetaGo (fuel + 1) (c :: t) = findMetaGo fuel t := by
  simp [findMetaGo, hm]

/-- The step budget is irrelevant as long as it covers the suffix
length: the scan consumes at least one character per step. -/
theorem findMetaGo_fuel :
    ∀ (f1 : Nat) {f2 : Nat} {cs : List Char}, cs.length ≤ f1 → cs.length ≤ f2 →
      findMetaGo f1 cs = findMetaGo f2 cs := by
  intro f1
  induction f1 with
  | zero =>
    intro f2 cs h1 _
    have : cs = [] := List.length_eq_zero.mp (Nat.le_zero.mp h1)
    subst this
    rw [findMetaGo_nil, findMetaGo_nil]
  | succ f ih =>
    intro f2 cs h1 h2
    match cs with
    | [] => rw [findMetaGo_nil, findMetaGo_nil]
    | c :: t =>
      have hlen : t.length + 1 ≤ f2 := by simpa using h2
      obtain ⟨f2p, rfl⟩ : ∃ f2p, f2 = f2p + 1 := ⟨f2 - 1, by omega⟩
      match hm : matchMetaHead (c :: t) with
      | some (l, v, r) =>
        rw [findMetaGo_step f hm, findMetaGo_step f2p hm]
        have hr := matchMetaHead_rest_length hm
        simp only [List.length_cons] at hr h1
        exact congrArg _ (ih (by omega) (by omega))
      | none =>
        rw [findMetaGo_skip f hm, findMetaGo_skip f2p hm]
        simp only [List.length_cons] at h1
        exact ih (by omega) (by omega)


/-! ### Helper lemmas -/
theorem toList_asString (l : List Char) : (l.asString).toList = l := rfl

theorem char_toNat_ofNat_lt (n : Nat) (h : n < 55296) : (Char.ofNat n).toNat = n := by
  unfold Char.ofNat
  rw [dif_pos (Or.inl h)]
  rfl

theorem pyLowerChar_idem (c : Char) : pyLowerChar (pyLowerChar c) = pyLowerChar c := by
  unfold pyLowerChar
  by_cases h : 65 ≤ c.toNat ∧ c.toNat ≤ 90
  · rw [if_pos h]
    have ht : (Char.ofNat (c.toNat + 32)).toNat = c.toNat + 32 :=
      char_toNat_ofNat_lt _ (by omega)
    rw [if_neg (by rw [ht]; omega)]
  · rw [if_neg h, if_neg h]

theorem pyLower_idem (s : String) : pyLower (pyLower s) = pyLower s := by
  unfold pyLower
  rw [toList_asString, List.map_map]
  exact congrArg _ (List.map_congr_left (fun a _ => pyLowerChar_idem a))

theorem listContainsSub_iff (hay needle : List Char) :
    listContainsSub hay needle = true ↔ needle <:+: hay := by
  induction hay with
  | nil =>
    simp [listContainsSub, List.isEmpty_iff, List.infix_nil]
  | cons a t ih =>
    simp only [listContainsSub, Bool.or_eq_true, List.isPrefixOf_iff_prefix, ih,
      List.infix_cons_iff]

theorem strContains_stars (k n : Nat) :
    strContains (mkStars k) (mkStars n) = true ↔ n ≤ k := by
  unfold strContains mkStars
  rw [toList_asString, toList_asString, listContainsSub_iff]
  constructor
  · intro h
    have := h.sublist
    rwa [List.replicate_sublist_replicate] at this
  · intro h
    refine ⟨[], List.replicate (k - n) (Char.ofNat 11088), ?_⟩
    rw [List.nil_append, ← List.replicate_add]
    congr 1
    omega

theorem synthTags_eq_claim (ts : List String) (c sc : String) :
    synthTags ts c sc = claimSynthTags ts c sc := by
  unfold synthTags claimSynthTags
  by_cases h1 : c ∈ ts <;> by_cases h2 : sc = "general" <;>
    by_cases h3 : sc ∈ ts <;> by_cases h4 : sc = c <;> simp_all

theorem lookup_mapPair {β : Type} (f : String → β → β) (l : List (String × β)) (k : String) :
    List.lookup k (l.map (fun p => (p.1, f p.1 p.2))) = (List.lookup k l).map (f k) := by
  induction l with
  | nil => rfl
  | cons a t ih =>
    obtain ⟨a1, a2⟩ := a
    simp only [List.map_cons, List.lookup_cons]
    by_cases h : k == a1
    · have hk := eq_of_beq h
      subst hk
      simp
    · simp [h, ih]

theorem lowContains_lowerStrV (kwl : String) (v : YVal) :
    lowContains kwl (lowerStrV v) = lowContains kwl v := by
  cases v <;> simp [lowerStrV, lowContains, pyLower_idem]


theorem getF_lowerRecord (exp : PyDict) (k : String) (d : YVal)
    (hd : lowerFieldV k d = d) :
    getF (lowerRecord exp) k d = lowerFieldV k (getF exp k d) := by
  unfold getF lowerRecord
  rw [lookup_mapPair]
  cases exp.lookup k <;> simp [hd]

theorem lowerFieldV_strKey (k : String)
    (hk : k = "title" ∨ k = "description" ∨ k = "category" ∨ k = "subcategory" ∨ k = "content")
    (v : YVal) : lowerFieldV k v = lowerStrV v := by
  unfold lowerFieldV
  rw [if_pos hk]

theorem anyLowContains_map (kwl : String) (xs : List YVal) :
    anyLowContains kwl (xs.map lowerStrV) = anyLowContains kwl xs := by
  induction xs with
  | nil => rfl
  | cons v rest ih =>
    simp only [List.map_cons, anyLowContains, lowContains_lowerStrV]
    cases lowContains kwl v with
    | none => rfl
    | some b => cases b <;> simp [ih]

theorem anyTagMatch_lower (kwl : String) (v : YVal) :
    anyTagMatch kwl (lowerFieldV "tags" v) = anyTagMatch kwl v := by
  have h : lowerFieldV "tags" v =
      (match v with | .l xs => .l (xs.map lowerStrV) | v => v) := by
    simp [lowerFieldV]
  rw [h]
  cases v <;> simp [anyTagMatch, anyLowContains_map]

theorem matchYamlSolution_lower (kwl : String) (exp : PyDict) :
    matchYamlSolution kwl (lowerRecord exp) = matchYamlSolution kwl exp := by
  unfold matchYamlSolution
  rw [getF_lowerRecord exp "format" .null (by simp [lowerFieldV]),
    getF_lowerRecord exp "solution" (.m []) (by simp [lowerFieldV])]
  have hf : lowerFieldV "format" (getF exp "format" .null) = getF exp "format" .null := by
    simp [lowerFieldV]
  rw [hf]
  cases hs : getF exp "solution" (.m []) with
  | m kvs =>
    have hsol : lowerFieldV "solution" (.m kvs) = .m (kvs.map (fun p =>
        (p.1, if p.1 = "approach" ∨ p.1 = "implementation" then lowerStrV p.2 else p.2))) := by
      simp [lowerFieldV]
    rw [hsol]
    simp only
    rw [lookup_mapPair (fun k v => if k = "approach" ∨ k = "implementation" then lowerStrV v else v) kvs "approach",
      lookup_mapPair (fun k v => if k = "approach" ∨ k = "implementation" then lowerStrV v else v) kvs "implementation"]
    cases kvs.lookup "approach" <;> cases kvs.lookup "implementation" <;>
      simp [lowContains_lowerStrV]
  | s x => have : lowerFieldV "solution" (.s x) = .s x := by simp [lowerFieldV]
           rw [this]
  | i n => have : lowerFieldV "solution" (.i n) = .i n := by simp [lowerFieldV]
           rw [this]
  | l xs => have : lowerFieldV "solution" (.l xs) = .l xs := by simp [lowerFieldV]
            rw [this]
  | null => have : lowerFieldV "solution" .null = .null := by simp [lowerFieldV]
            rw [this]

theorem matchBase_lower (kwl : String) (exp : PyDict) :
    matchBase kwl (lowerRecord exp) = matchBase kwl exp := by
  unfold matchBase
  rw [getF_lowerRecord exp "title" (.s "") (by simp [lowerFieldV, lowerStrV, pyLower]; rfl),
    getF_lowerRecord exp "description" (.s "") (by simp [lowerFieldV, lowerStrV, pyLower]; rfl),
    getF_lowerRecord exp "tags" (.l []) (by simp [lowerFieldV]),
    getF_lowerRecord exp "category" (.s "") (by simp [lowerFieldV, lowerStrV, pyLower]; rfl),
    getF_lowerRecord exp "subcategory" (.s "") (by simp [lowerFieldV, lowerStrV, pyLower]; rfl),
    lowerFieldV_strKey "title" (by simp) _,
    lowerFieldV_strKey "description" (by simp) _,
    lowerFieldV_strKey "category" (by simp) _,
    lowerFieldV_strKey "subcategory" (by simp) _,
    anyTagMatch_lower, lowContains_lowerStrV, lowContains_lowerStrV,
    lowContains_lowerStrV, lowContains_lowerStrV]

theorem matchKeyword_lower (kwl : String) (exp : PyDict) :
    matchKeyword kwl (lowerRecord exp) = matchKeyword kwl exp := by
  unfold matchKeyword
  rw [matchBase_lower,
    getF_lowerRecord exp "format" .null (by simp [lowerFieldV]),
    getF_lowerRecord exp "content" (.s "") (by simp [lowerFieldV, lowerStrV, pyLower]; rfl),
    lowerFieldV_strKey "content" (by simp) _,
    lowContains_lowerStrV, matchYamlSolution_lower]
  have hf : lowerFieldV "format" (getF exp "format" .null) = getF exp "format" .null := by
    simp [lowerFieldV]
  rw [hf]


/-! ### Claim theorems -/
/-- C10: for each of the four difficulty enum values, encoding it as a
star string via the converter's `difficulty_stars` table and then
decoding that string with the searcher's star-glyph scan yields the
original difficulty value (the convert-then-parse round trip is the
identity on the enum). -/
theorem C10_difficulty_roundtrip (d s : String) (h : (d, s) ∈ difficulty_stars) :
    parseDifficulty s = d ∧ starsFor d = s := by
  simp only [difficulty_stars, List.mem_cons, List.not_mem_nil, or_false] at h
  rcases h with h | h | h | h <;>
    (injection h with h1 h2; subst h1; subst h2; exact ⟨by decide, by decide⟩)

theorem C10_difficulty_roundtrip_witness :
    parseDifficulty "⭐⭐⭐⭐⭐" = "expert" :=
  (C10_difficulty_roundtrip "expert" "⭐⭐⭐⭐⭐" (by decide)).1

/-- C5 counterexample: a metadata value with exactly five star glyphs
that are not consecutive decodes to `"intermediate"`, not `"expert"` —
the decoder counts consecutive runs (substring checks), not glyphs. -/
theorem C5_counterexample :
    ("⭐a⭐a⭐a⭐a⭐".toList.count (Char.ofNat 11088) = 5) ∧
    parseDifficulty "⭐a⭐a⭐a⭐a⭐" = "intermediate" ∧
    parseDifficulty "⭐a⭐a⭐a⭐a⭐" ≠ "expert" := by
  refine ⟨by decide, by decide, by decide⟩

/-- C5 amended: the decoder is exact on consecutive star runs — a value
of exactly `k` consecutive stars decodes to expert for `k ≥ 5`, advanced
for `k = 4`, intermediate for `k = 3`, beginner for `k = 2`, and the
intermediate default otherwise; and any value containing no two
consecutive stars (in particular any value with no stars at all)
decodes to the intermediate default. -/
theorem C5_star_runs (k : Nat) (txt : String) :
    (parseDifficulty (mkStars k) =
      if 5 ≤ k then "expert"
      else if k = 4 then "advanced"
      else if k = 3 then "intermediate"
      else if k = 2 then "beginner"
      else "intermediate") ∧
    (strContains txt (mkStars 2) = false → parseDifficulty txt = "intermediate") := by
  have e5 : ("⭐⭐⭐⭐⭐" : String) = mkStars 5 := by decide
  have e4 : ("⭐⭐⭐⭐" : String) = mkStars 4 := by decide
  have e3 : ("⭐⭐⭐" : String) = mkStars 3 := by decide
  have e2 : ("⭐⭐" : String) = mkStars 2 := by decide
  constructor
  · unfold parseDifficulty
    rw [e5, e4, e3, e2]
    by_cases h5 : 5 ≤ k
    · rw [if_pos ((strContains_stars k 5).mpr h5), if_pos h5]
    · rw [if_neg (fun hc => h5 ((strContains_stars k 5).mp hc)), if_neg h5]
      by_cases h4 : k = 4
      · subst h4
        rw [if_pos ((strContains_stars 4 4).mpr (by omega))]
        rfl
      · have n4 : ¬ 4 ≤ k := fun hc => by omega
        rw [if_neg (fun hc => n4 ((strContains_stars k 4).mp hc)), if_neg h4]
        by_cases h3 : k = 3
        · subst h3
          rw [if_pos ((strContains_stars 3 3).mpr (by omega))]
          rfl
        · have n3 : ¬ 3 ≤ k := by omega
          rw [if_neg (fun hc => n3 ((strContains_stars k 3).mp hc)), if_neg h3]
          by_cases h2 : k = 2
          · subst h2
            rw [if_pos ((strContains_stars 2 2).mpr (by omega))]
            rfl
          · have n2 : ¬ 2 ≤ k := by omega
            rw [if_neg (fun hc => n2 ((strContains_stars k 2).mp hc)), if_neg h2]
  · intro h2
    have mono : ∀ n, 2 ≤ n → strContains txt (mkStars n) = false := by
      intro n hn
      cases hb : strContains txt (mkStars n) with
      | false => rfl
      | true =>
        exfalso
        have hinf : (mkStars n).toList <:+: txt.toList := by
          have := (listContainsSub_iff txt.toList (mkStars n).toList).mp hb
          exact this
        have h2n : (mkStars 2).toList <:+: (mkStars n).toList := by
          have := (strContains_stars n 2).mpr hn
          exact (listContainsSub_iff _ _).mp this
        have : strContains txt (mkStars 2) = true :=
          (listContainsSub_iff _ _).mpr (h2n.trans hinf)
        rw [h2] at this
        exact Bool.false_ne_true this
    unfold parseDifficulty
    rw [e5, e4, e3, e2]
    rw [mono 5 (by omega), mono 4 (by omega), mono 3 (by omega), mono 2 (by omega)]
    rfl

theorem C5_star_runs_witness :
    parseDifficulty "no stars here" = "intermediate" :=
  (C5_star_runs 0 "no stars here").2 (by decide)

/-- C3 counterexample: for the path `1-arch/flutter/x.md` the claim's
algorithm (digit-prefix rule on the segment two levels above the file)
yields category `"arch"`, but the code checks the immediate parent for a
literal `'0'` prefix and, finding neither rule applicable to the
grandparent `"1-arch"`, leaves the category at `"general"`. -/
theorem C3_counterexample :
    specClassify ["1-arch", "flutter", "x.md"] = ("arch", "flutter") ∧
    inferCategory ["1-arch", "flutter", "x.md"] = ("general", "flutter") ∧
    specClassify ["1-arch", "flutter", "x.md"] ≠ inferCategory ["1-arch", "flutter", "x.md"] := by
  refine ⟨by decide, by decide, by decide⟩

/-- C3 amended: the classifier inspects the immediate parent segment; if
it starts with the character `0` and contains a hyphen the category is
the text after the first hyphen; otherwise, if it is a known ecosystem
name it becomes the subcategory and the category is re-derived from the
grandparent by the same `0`-prefix rule (defaulting to `"general"`);
otherwise the parent itself is the category; paths with fewer than two
components yield `("general", "general")`. -/
theorem C3_amended_classifier (parts : List String) :
    inferCategory parts = amendedClassify parts := by
  rcases hr : parts.reverse with _ | ⟨f, rest1⟩
  · have hp : parts = [] := by simpa using congrArg List.reverse hr
    subst hp
    rfl
  · rcases rest1 with _ | ⟨p, rest⟩
    · have hp : parts = [f] := by simpa using congrArg List.reverse hr
      subst hp
      rfl
    · have hp : parts = rest.reverse ++ [p, f] := by simpa using congrArg List.reverse hr
      subst hp
      rcases rest with _ | ⟨g, rest2⟩
      · simp [inferCategory, amendedClassify]
      · have hsplit : (g :: rest2).reverse ++ [p, f] = rest2.reverse ++ [g, p, f] := by simp
        rw [hsplit]
        have hlen : (rest2.reverse ++ [g, p, f]).length = rest2.length + 3 := by simp
        have hgp : (rest2.reverse ++ [g, p, f]).getD (rest2.length + 1) "" = p := by
          rw [List.getD_append_right _ _ _ _ (by simp)]
          simp
        have hgg : (rest2.reverse ++ [g, p, f]).getD rest2.length "" = g := by
          rw [List.getD_append_right _ _ _ _ (by simp)]
          simp
        have hrev : (rest2.reverse ++ [g, p, f]).reverse = f :: p :: g :: rest2 := by simp
        unfold inferCategory amendedClassify
        rw [hlen, hrev]
        simp only [show rest2.length + 3 - 2 = rest2.length + 1 from by omega,
          show rest2.length + 3 - 3 = rest2.length from by omega, hgp, hgg]
        rw [if_pos (show 2 ≤ rest2.length + 3 from by omega),
          if_pos (show 3 ≤ rest2.length + 3 from by omega)]

set_option maxRecDepth 4000 in
theorem C4_counterexample :
    (pyStrip c4group).length ≤ 200 ∧
    truncateDesc c4group ≠ pyStrip c4group ∧
    truncateDesc c4group = List.replicate 100 'a' ++ "...".toList := by
  refine ⟨by decide, by decide, by decide⟩

/-- C4 amended: when the raw matched group exceeds 200 characters the
stored description is the stripped group truncated to its first 200
characters with an ellipsis appended (hence at most 203 characters);
when the raw group is at most 200 characters the stored description is
the stripped group verbatim. -/
theorem C4_truncation (g : List Char) :
    (200 < g.length →
      truncateDesc g = (pyStrip g).take 200 ++ "...".toList ∧ (truncateDesc g).length ≤ 203) ∧
    (g.length ≤ 200 → truncateDesc g = pyStrip g) := by
  constructor
  · intro h
    unfold truncateDesc
    rw [if_pos h]
    refine ⟨rfl, ?_⟩
    have h1 : ((pyStrip g).take 200).length ≤ 200 := by
      rw [List.length_take]
      exact Nat.min_le_left _ _
    have h2 : ("...".toList).length = 3 := by decide
    rw [List.length_append, h2]
    omega
  · intro h
    unfold truncateDesc
    rw [if_neg (by omega)]

theorem C4_truncation_witness :
    truncateDesc (List.replicate 201 'b') =
        (pyStrip (List.replicate 201 'b')).take 200 ++ "...".toList ∧
    truncateDesc "  hi  ".toList = pyStrip "  hi  ".toList :=
  ⟨((C4_truncation (List.replicate 201 'b')).1 (by rw [List.length_replicate]; omega)).1,
   (C4_truncation "  hi  ".toList).2 (by decide)⟩


theorem lookup_pySet_ne (d : PyDict) (k k2 : String) (v : YVal) (h : k ≠ k2) :
    (pySet d k2 v).lookup k = d.lookup k := by
  unfold pySet
  split
  · have hmap : (d.map fun p => if p.1 = k2 then (p.1, v) else p) =
        d.map (fun p => (p.1, if p.1 = k2 then v else p.2)) := by
      apply List.map_congr_left
      intro p _
      by_cases hp : p.1 = k2 <;> simp [hp]
    rw [hmap, lookup_mapPair (fun a b => if a = k2 then v else b) d k]
    cases d.lookup k <;> simp [h]
  · rw [List.lookup_append]
    have hk : List.lookup k [(k2, v)] = none := by
      simp [List.lookup_cons, beq_false_of_ne h]
    rw [hk]
    cases d.lookup k <;> rfl

/-- C7: for every Markdown-derived record, the `id` field is exactly the
record's own category, subcategory and file stem joined with hyphens,
lowercased, with every space replaced by a hyphen. -/
theorem C7_markdown_id (content : String) (parts : List String) (stem : String) :
    ∃ c sc, (parse_markdown_experience content parts stem).lookup "category" = some (.s c) ∧
      (parse_markdown_experience content parts stem).lookup "subcategory" = some (.s sc) ∧
      (parse_markdown_experience content parts stem).lookup "id" =
        some (.s (idNormalize (c ++ "-" ++ sc ++ "-" ++ stem))) :=
  ⟨(inferCategory parts).1, (inferCategory parts).2, rfl, rfl, rfl⟩

/-- C2 counterexample: a YAML file whose mapping lacks `category` is
stored with no `category` key at all (the loader grafts only `file_path`
and `format`, with no defaulting), and the Markdown fallback for an
unresolvable path is `"general"` for both fields, not `"unknown"` for
the subcategory. -/
theorem C2_counterexample :
    load_experiences [(.m [], "empty.yaml")] [] =
        [[("file_path", .s "empty.yaml"), ("format", .s "yaml")]] ∧
    ([("file_path", YVal.s "empty.yaml"), ("format", YVal.s "yaml")] : PyDict).lookup "category" = none ∧
    (parse_markdown_experience "x" ["notes.md"] "notes").lookup "subcategory" = some (.s "general") ∧
    ("general" : String) ≠ "unknown" := by
  refine ⟨by rfl, by rfl, by rfl, by decide⟩

/-- C2 amended: every Markdown-derived record carries string-valued
`category` and `subcategory` keys, both defaulting to `"general"` when
the path has fewer than two components; a YAML-derived record's
`category` key is exactly whatever its source mapping had (the loader
adds only `file_path` and `format`). -/
theorem C2_category_presence (content : String) (parts : List String)
    (stem path f : String) (kvs : List (String × YVal)) :
    (∃ c sc, (loadMarkdownExperience content parts stem path).lookup "category" = some (.s c) ∧
      (loadMarkdownExperience content parts stem path).lookup "subcategory" = some (.s sc)) ∧
    ((parse_markdown_experience content [f] stem).lookup "category" = some (.s "general") ∧
      (parse_markdown_experience content [f] stem).lookup "subcategory" = some (.s "general")) ∧
    (loadYamlExperience (.m kvs) path).map (fun d => d.lookup "category") =
      some (kvs.lookup "category") := by
  refine ⟨⟨(inferCategory parts).1, (inferCategory parts).2, ?_, ?_⟩, ⟨rfl, rfl⟩, ?_⟩
  · unfold loadMarkdownExperience
    rw [lookup_pySet_ne _ _ _ _ (by decide), lookup_pySet_ne _ _ _ _ (by decide)]
    rfl
  · unfold loadMarkdownExperience
    rw [lookup_pySet_ne _ _ _ _ (by decide), lookup_pySet_ne _ _ _ _ (by decide)]
    rfl
  · show some (List.lookup "category" (pySet (pySet kvs "file_path" (.s path)) "format" (.s "yaml"))) =
        some (kvs.lookup "category")
    refine congrArg some ?_
    rw [lookup_pySet_ne (pySet kvs "file_path" (.s path)) "category" "format" (.s "yaml") (by decide),
      lookup_pySet_ne kvs "category" "file_path" (.s path) (by decide)]

/-- C8: when a document has no explicit tag declaration, its tags are
exactly the tech stack in order, then the category if absent, then the
subcategory if neither `"general"` nor already present (the claim-shaped
`claimSynthTags`); when a declaration is present, the tags are its
comma-separated entries, whitespace- and quote-stripped.  The presence
check is exact (not case-normalized): synthesizing over tech stack
`["Cache"]` with category `"cache"` keeps both spellings. -/
theorem C8_tag_synthesis (content : String) (parts : List String) (stem : String) :
    (searchTags content.toList = none →
      (parse_markdown_experience content parts stem).lookup "tags" =
        some (.l ((claimSynthTags (techStackOf content)
          (inferCategory parts).1 (inferCategory parts).2).map .s))) ∧
    (∀ g, searchTags content.toList = some g →
      (parse_markdown_experience content parts stem).lookup "tags" =
        some (.l (((pySplitChar ',' g).map (fun t => (cleanTag t).asString)).map .s))) ∧
    synthTags ["Cache"] "cache" "general" = ["Cache", "cache"] := by
  refine ⟨?_, ?_, by decide⟩
  · intro h
    have heq : (parse_markdown_experience content parts stem).lookup "tags" =
        some (.l ((synthTags (techStackOf content)
          (inferCategory parts).1 (inferCategory parts).2).map .s)) := by
      unfold parse_markdown_experience
      dsimp only
      rw [h]
      rfl
    rw [heq, synthTags_eq_claim]
  · intro g h
    unfold parse_markdown_experience
    dsimp only
    rw [h]
    rfl

theorem C8_tag_synthesis_witness :
    ((parse_markdown_experience "> **技术栈**: Redis\nx" ["01-perf", "x.md"] "x").lookup "tags" =
      some (.l ((claimSynthTags (techStackOf "> **技术栈**: Redis\nx") "perf" "general").map .s))) ∧
    ((parse_markdown_experience "标签: [a, b]" ["x.md"] "x").lookup "tags" =
      some (.l (((pySplitChar ',' "a, b".toList).map (fun t => (cleanTag t).asString)).map .s))) := by
  constructor
  · have h := (C8_tag_synthesis "> **技术栈**: Redis\nx" ["01-perf", "x.md"] "x").1 (by decide)
    rw [h]
    have : inferCategory ["01-perf", "x.md"] = ("perf", "general") := by decide
    rw [this]
  · exact (C8_tag_synthesis "标签: [a, b]" ["x.md"] "x").2.1 "a, b".toList (by decide)

/-- C1 amended: a record whose required fields are present, non-empty
and format-valid but which lacks `solution` validates to `valid=false`
with exactly one error, the missing-`solution` error; setting `tags` to
the empty list additionally produces the empty-tags warning AND one more
error, the required-field emptiness error for `tags` (the claim's
"warning, not an error" does not hold — both are reported). -/
theorem C1_missing_solution (i t c sc dsc d : String) (tags tech : List String)
    (stem parent : String)
    (hc : c ∈ valid_categories) (hd : d ∈ valid_difficulties)
    (hi : i ≠ "") (ht : t ≠ "") (hsc : sc ≠ "") (hdsc : dsc ≠ "") (htech : tech ≠ []) :
    (tags ≠ [] →
      (validate_file (completeDoc i t c sc dsc d tags tech) stem parent).map
          (fun r => (r.1, r.2.1)) = some (false, ["缺少 solution 字段"])) ∧
    (tags = [] →
      (validate_file (completeDoc i t c sc dsc d tags tech) stem parent).map
          (fun r => (r.1, r.2.1, r.2.2.contains "建议添加至少一个标签")) =
        some (false, ["字段 tags 不能为空", "缺少 solution 字段"], true)) := by
  have hc0 : c ≠ "" := by
    rintro rfl
    simp [valid_categories] at hc
  have hd0 : d ≠ "" := by
    rintro rfl
    simp [valid_difficulties] at hd
  have hcc : valid_categories.contains c = true := List.elem_eq_true_of_mem hc
  have hdd : valid_difficulties.contains d = true := List.elem_eq_true_of_mem hd
  have htech2 : (tech.map YVal.s).isEmpty = false := by
    cases tech with
    | nil => exact absurd rfl htech
    | cons a l => rfl
  constructor
  · intro htags
    obtain ⟨tg0, tgr, rfl⟩ : ∃ a l, tags = a :: l := by
      cases tags with
      | nil => exact absurd rfl htags
      | cons a l => exact ⟨a, l, rfl⟩
    simp [validate_file, completeDoc, checkRequiredFields, docRequired, checkFieldFormats,
      checkContentQuality, checkFileNaming, codeExampleErrs, pyFalsy, pyLen, yvalInStrList,
      hcc, hdd, hc, hd, hi, ht, hsc, hdsc, hc0, hd0, htech2]
  · rintro rfl
    simp [validate_file, completeDoc, checkRequiredFields, docRequired, checkFieldFormats,
      checkContentQuality, checkFileNaming, codeExampleErrs, pyFalsy, pyLen, yvalInStrList,
      hcc, hdd, hc, hd, hi, ht, hsc, hdsc, hc0, hd0, htech2]


/-! ### C6 machinery: symbolic reasoning about the metadata scan -/
theorem stopHere_cons_ne {c : Char} (h : c ≠ '\n') (t : List Char) :
    stopHere (c :: t) = false := by
  cases t with
  | nil => rfl
  | cons b r => simp [stopHere, h]

/-- The lazy value match returns exactly `(v, rest)` when no stop
position lies strictly inside `v` and one lies right after it. -/
theorem takeUntil_exact {stop : List Char → Bool} :
    ∀ (v rest : List Char), v ≠ [] →
      (∀ b, b <:+ v → b ≠ v → b ≠ [] → stop (b ++ rest) = false) →
      stop rest = true →
      takeUntil stop (v ++ rest) = some (v, rest) := by
  intro v
  induction v with
  | nil => intro rest h; exact absurd rfl h
  | cons c v2 ih =>
    intro rest _ hmid hstop
    cases hv2 : v2 with
    | nil =>
      subst hv2
      show takeUntil stop (c :: rest) = some ([c], rest)
      unfold takeUntil
      rw [if_pos hstop]
    | cons d v3 =>
      rw [← hv2]
      have hmid2 : stop (v2 ++ rest) = false := by
        refine hmid v2 (List.suffix_cons c v2) ?_ ?_
        · intro he
          have := congrArg List.length he
          simp at this
        · rw [hv2]
          exact List.cons_ne_nil d v3
      have hrec : takeUntil stop (v2 ++ rest) = some (v2, rest) := by
        refine ih rest (by rw [hv2]; exact List.cons_ne_nil d v3) ?_ hstop
        intro b hb hbne hbnil
        refine hmid b (hb.trans (List.suffix_cons c v2)) ?_ hbnil
        intro he
        have h1 := hb.length_le
        have := congrArg List.length he
        simp at this
        omega
      show takeUntil stop (c :: (v2 ++ rest)) = some (c :: v2, rest)
      unfold takeUntil
      rw [if_neg (by rw [hmid2]; exact Bool.false_ne_true), hrec]
      rfl

theorem takeWhile_ne_star (label : List Char) (t : List Char)
    (h : ∀ ch ∈ label, ch ≠ '*') :
    (label ++ '*' :: t).takeWhile (· ≠ '*') = label := by
  induction label with
  | nil => simp [List.takeWhile_cons]
  | cons a l ih =>
    have ha : a ≠ '*' := h a (List.mem_cons_self a l)
    simp only [List.cons_append, List.takeWhile_cons, ha, decide_True, if_pos]
    rw [ih (fun ch hm => h ch (List.mem_cons_of_mem a hm))]
    simp [ha]

/-- The metadata regex matches a well-formed `> **label**: value` entry
at the head of the text: the label is any non-empty star-free text, the
value starts with a non-whitespace character, and the value ends exactly
where the lookahead first holds. -/
theorem matchMetaHead_entry (label v rest : List Char)
    (hlab : label ≠ []) (hlabstar : ∀ ch ∈ label, ch ≠ '*')
    (hvh : ∀ ch ∈ v.take 1, pyWhitespace ch = false) (hv : v ≠ [])
    (hstops : ∀ b, b <:+ v → b ≠ v → b ≠ [] → stopHere (b ++ rest) = false)
    (hstop : stopHere rest = true) :
    matchMetaHead ('>' :: ' ' :: '*' :: '*' ::
        (label ++ '*' :: '*' :: ':' :: ' ' :: (v ++ rest))) =
      some (label, v, rest) := by
  obtain ⟨c, v2, rfl⟩ : ∃ c v2, v = c :: v2 := by
    cases v with
    | nil => exact absurd rfl hv
    | cons c v2 => exact ⟨c, v2, rfl⟩
  have hc : pyWhitespace c = false := hvh c (by simp)
  simp only [matchMetaHead]
  unfold metaAfterStars
  rw [takeWhile_ne_star label _ hlabstar]
  rw [if_neg (by simp [hlab])]
  rw [List.drop_left]
  simp only [metaAfterLabel]
  unfold metaValue
  have hw : (((' ' : Char) :: (c :: v2 ++ rest)).takeWhile pyWhitespace).length = 1 := by
    have hsp : pyWhitespace ' ' = true := by decide
    simp [List.takeWhile_cons, hc, hsp]
  rw [hw]
  dsimp only [List.drop_succ_cons, List.drop_zero]
  rw [takeUntil_exact (c :: v2) rest hv hstops hstop]

/-- A suffix of an append either lies inside the right part or is a
non-empty suffix of the left part glued to the whole right part. -/
theorem suffix_append_cases {b v w : List Char} (h : b <:+ v ++ w) :
    b <:+ w ∨ ∃ b1, b1 ≠ [] ∧ b = b1 ++ w ∧ b1 <:+ v := by
  obtain ⟨s, hs⟩ := h
  rcases le_or_lt v.length s.length with hle | hlt
  · left
    refine ⟨s.drop v.length, ?_⟩
    have h1 := congrArg (List.drop v.length) hs
    rwa [List.drop_append_of_le_length hle, List.drop_left] at h1
  · right
    have hsv : s.length ≤ v.length := Nat.le_of_lt hlt
    have h1 := congrArg (List.drop s.length) hs
    rw [List.drop_left, List.drop_append_of_le_length hsv] at h1
    refine ⟨v.drop s.length, ?_, h1, List.drop_suffix _ _⟩
    intro he
    have := congrArg List.length he
    simp at this
    omega

/-- Unfold one successful match step of the whole scan. -/
theorem findMetaL_match {cs l v r : List Char} (hm : matchMetaHead cs = some (l, v, r)) :
    findMetaL cs = (l, v) :: findMetaL r := by
  unfold findMetaL
  obtain ⟨n, hn⟩ : ∃ n, cs.length = n + 1 := by
    cases cs with
    | nil => simp [matchMetaHead] at hm
    | cons a t => exact ⟨t.length, by simp⟩
  have hr := matchMetaHead_rest_length hm
  rw [hn, findMetaGo_step n hm, findMetaGo_fuel n (by omega) (Nat.le_refl _)]


theorem stops_inside_nonl {v rest : List Char} (hnl : ∀ ch ∈ v, ch ≠ '\n') :
    ∀ b, b <:+ v → b ≠ v → b ≠ [] → stopHere (b ++ rest) = false := by
  intro b hb _ hbne
  obtain ⟨ch, b2, rfl⟩ : ∃ ch b2, b = ch :: b2 := by
    cases b with
    | nil => exact absurd rfl hbne
    | cons ch b2 => exact ⟨ch, b2, rfl⟩
  exact stopHere_cons_ne (hnl ch (hb.subset (List.mem_cons_self ch b2))) _

theorem stops_continuation {v : List Char} (hnl : ∀ ch ∈ v, ch ≠ '\n') :
    ∀ b, b <:+ v ++ "\n>more".toList → b ≠ v ++ "\n>more".toList → b ≠ [] →
      stopHere (b ++ "\nEnd".toList) = false := by
  intro b hb _ hbne
  rcases suffix_append_cases hb with hbw | ⟨b1, hb1ne, rfl, hb1⟩
  · have hlen : b.length ≤ ("\n>more".toList).length := hbw.length_le
    have hdrop := List.suffix_iff_eq_drop.mp hbw
    have hlen6 : ("\n>more".toList).length = 6 := by decide
    have h1 : 1 ≤ b.length := by
      cases b with
      | nil => exact absurd rfl hbne
      | cons x xs => simp
    rw [hlen6] at hlen
    have hk : b.length = 1 ∨ b.length = 2 ∨ b.length = 3 ∨ b.length = 4 ∨
        b.length = 5 ∨ b.length = 6 := by omega
    rcases hk with hk | hk | hk | hk | hk | hk <;> (rw [hdrop, hk]; decide)
  · rw [List.append_assoc]
    obtain ⟨ch, b2, rfl⟩ : ∃ ch b2, b1 = ch :: b2 := by
      cases b1 with
      | nil => exact absurd rfl hb1ne
      | cons ch b2 => exact ⟨ch, b2, rfl⟩
    exact stopHere_cons_ne (hnl ch (hb1.subset (List.mem_cons_self ch b2))) _

/-- C6 amended: for a `> **label**: value` entry whose value contains no
newline, extraction returns the full value, ending right before the next
`"> "` blockquote line (first conjunct) or before the line that ends the
metadata block (second conjunct); a continuation line starting with `>`
but no space is absorbed into a multi-line value (third conjunct).  An
entry at the very end of the document is not extracted at all
(`C6_counterexample`). -/
theorem C6_meta_value_extent (label v : List Char)
    (hlab : label ≠ []) (hstar : ∀ ch ∈ label, ch ≠ '*')
    (hv : v ≠ []) (hnl : ∀ ch ∈ v, ch ≠ '\n')
    (hws : ∀ ch ∈ v.take 1, pyWhitespace ch = false) :
    findMetaL ('>' :: ' ' :: '*' :: '*' :: (label ++ '*' :: '*' :: ':' :: ' ' ::
        (v ++ "\n> **B**: y\nEnd".toList))) = [(label, v), ("B".toList, "y".toList)] ∧
    findMetaL ('>' :: ' ' :: '*' :: '*' :: (label ++ '*' :: '*' :: ':' :: ' ' ::
        (v ++ "\nEnd".toList))) = [(label, v)] ∧
    findMetaL ('>' :: ' ' :: '*' :: '*' :: (label ++ '*' :: '*' :: ':' :: ' ' ::
        ((v ++ "\n>more".toList) ++ "\nEnd".toList))) =
      [(label, v ++ "\n>more".toList)] := by
  refine ⟨?_, ?_, ?_⟩
  · rw [findMetaL_match (matchMetaHead_entry label v _ hlab hstar hws hv
      (stops_inside_nonl hnl) (by decide))]
    rw [show findMetaL "\n> **B**: y\nEnd".toList = [("B".toList, "y".toList)] from by decide]
  · rw [findMetaL_match (matchMetaHead_entry label v _ hlab hstar hws hv
      (stops_inside_nonl hnl) (by decide))]
    rw [show findMetaL "\nEnd".toList = ([] : List (List Char × List Char)) from by decide]
  · have hv2 : v ++ "\n>more".toList ≠ [] := by
      intro h
      exact hv (List.append_eq_nil.mp h).1
    have hws2 : ∀ ch ∈ (v ++ "\n>more".toList).take 1, pyWhitespace ch = false := by
      cases v with
      | nil => exact absurd rfl hv
      | cons c v2 =>
        intro ch hch
        simp only [List.cons_append, List.take_succ_cons, List.take_zero,
          List.mem_singleton] at hch
        subst hch
        exact hws ch (by simp)
    rw [findMetaL_match (matchMetaHead_entry label (v ++ "\n>more".toList) _ hlab hstar
      hws2 hv2 (stops_continuation hnl) (by decide))]
    rw [show findMetaL "\nEnd".toList = ([] : List (List Char × List Char)) from by decide]

theorem C6_meta_value_extent_witness :
    findMetaL ('>' :: ' ' :: '*' :: '*' :: ("A".toList ++ '*' :: '*' :: ':' :: ' ' ::
        ("v1".toList ++ "\n> **B**: y\nEnd".toList))) =
      [("A".toList, "v1".toList), ("B".toList, "y".toList)] :=
  (C6_meta_value_extent "A".toList "v1".toList (by decide) (by decide) (by decide)
    (by decide) (by decide)).1

/-- C6 counterexample: the document consisting of the single metadata
line `> **技术栈**: A, B` (no following line) yields no extraction at
all — the lookahead needs a character after the value — although the
same line followed by any further line is extracted with its full
value. -/
theorem C6_counterexample :
    findMeta "> **技术栈**: A, B" = [] ∧
    findMeta "> **技术栈**: A, B\nX" = [("技术栈", "A, B")] := by
  refine ⟨by decide, by decide⟩


theorem C1_missing_solution_witness :
    (validate_file (completeDoc "architecture-cache" "T" "architecture" "caching"
        "A long enough description here" "advanced" ["cache"] ["Redis"]) "cache-2024"
        "experiences/architecture").map (fun r => (r.1, r.2.1)) =
      some (false, ["缺少 solution 字段"]) :=
  (C1_missing_solution "architecture-cache" "T" "architecture" "caching"
    "A long enough description here" "advanced" ["cache"] ["Redis"] "cache-2024"
    "experiences/architecture" (by decide) (by decide) (by decide) (by decide)
    (by decide) (by decide) (by decide)).1 (by decide)

/-- C1 counterexample: the complete record with `tags: []` and no
`solution` reports TWO errors — the empty-tags requirement error and the
missing-solution error — and the empty-tags advisory warning; the first
error's text contains `"tags"`, contradicting the claim that an empty
tag list is reported as a warning and not as an error. -/
theorem C1_counterexample :
    validate_file (completeDoc "architecture-cache" "T" "architecture" "caching"
        "A long enough description here" "advanced" [] ["Redis"]) "cache-2024"
        "experiences/architecture" =
      some (false, ["字段 tags 不能为空", "缺少 solution 字段"],
        ["建议添加至少一个标签", "建议添加代码示例", "建议添加作者信息", "建议添加创建日期",
         "质量评分较低，建议改进内容"]) ∧
    strContains "字段 tags 不能为空" "tags" = true := by
  refine ⟨by rfl, by decide⟩

/-- C9: the keyword filter distributes over concatenation of record
lists (filtering a union is the union of the filters, in order), and
matching is case-insensitive both in the keyword (lowercasing the
keyword does not change the result) and in the record fields
(lowercasing every matched field of every record selects the same
records). -/
theorem C9_keyword_filter (kw : String) (A B exps : List PyDict) :
    (search_by_keyword kw (A ++ B) =
      (search_by_keyword kw A).bind (fun ra => (search_by_keyword kw B).map (fun rb => ra ++ rb))) ∧
    (search_by_keyword kw exps = search_by_keyword (pyLower kw) exps) ∧
    (search_by_keyword kw (exps.map lowerRecord) =
      (search_by_keyword kw exps).map (List.map lowerRecord)) := by
  refine ⟨?_, ?_, ?_⟩
  · induction A with
    | nil =>
      simp only [List.nil_append, search_by_keyword, Option.some_bind]
      cases search_by_keyword kw B <;> simp
    | cons e A ih =>
      simp only [List.cons_append, search_by_keyword, List.append_eq]
      cases hm : matchKeyword (pyLower kw) e with
      | none => simp
      | some b =>
        simp only [Option.some_bind]
        rw [ih]
        cases hA : search_by_keyword kw A <;> cases hB : search_by_keyword kw B <;>
          cases b <;> simp
  · induction exps with
    | nil => rfl
    | cons e r ih =>
      simp only [search_by_keyword, pyLower_idem, ih]
  · induction exps with
    | nil => rfl
    | cons e r ih =>
      simp only [List.map_cons, search_by_keyword, matchKeyword_lower]
      cases hm : matchKeyword (pyLower kw) e with
      | none => simp
      | some b =>
        simp only [Option.some_bind]
        rw [ih]
        cases hr : search_by_keyword kw r <;> cases b <;> simp


end EngMem

